import Mathlib

set_option maxHeartbeats 1000000

/-!
Shallow embedding of src/src/vga_buffer.rs: a VGA text-mode writer over an
80x25 grid of two-byte cells (glyph byte + color byte).

Modelling conventions:
* machine integers (u8, usize) are Nat; all values produced stay below 256
  resp. within the grid bounds, so no wraparound arises;
* the panicking array indexing of the source is modelled in the Option
  monad, where `none` stands for an out-of-bounds access;
* `Volatile::read` / `Volatile::write` are ordinary reads and writes in this
  sequential single-owner model;
* the `&'static mut Buffer` reference becomes explicit state passing: each
  operation takes a `Writer` and returns the updated `Writer`.
-/

namespace VgaBuffer

/-- The 16-color VGA palette, from `enum Color` (repr(u8), discriminants 0..15). -/
inductive Color where
  | Black
  | Blue
  | Green
  | Cyan
  | Red
  | Magenta
  | Brown
  | LightGray
  | DarkGray
  | LightBlue
  | LightGreen
  | LightCyan
  | LightRed
  | Pink
  | Yellow
  | White
deriving DecidableEq

/-- The u8 discriminant of each `Color` variant, as written in the source. -/
def Color.toNat : Color → Nat
  | .Black => 0
  | .Blue => 1
  | .Green => 2
  | .Cyan => 3
  | .Red => 4
  | .Magenta => 5
  | .Brown => 6
  | .LightGray => 7
  | .DarkGray => 8
  | .LightBlue => 9
  | .LightGreen => 10
  | .LightCyan => 11
  | .LightRed => 12
  | .Pink => 13
  | .Yellow => 14
  | .White => 15

/-- The packed color byte, `struct ColorCode(u8)` (repr(transparent)). -/
abbrev ColorCode := Nat

/-- ColorCode::new: `(background as u8) << 4 | (foreground as u8)`.
Both discriminants are at most 15, so the u8 result is at most 255 and no
wraparound occurs. -/
def ColorCode.new (foreground background : Color) : ColorCode :=
  (background.toNat <<< 4) ||| foreground.toNat

/-- One screen cell, `struct ScreenChar` (repr(C)): glyph byte then color byte. -/
structure ScreenChar where
  ascii_character : Nat
  color_code : ColorCode
deriving DecidableEq

def BUFFER_HEIGHT : Nat := 25
def BUFFER_WIDTH : Nat := 80

/-- The 25x80 grid of cells, `struct Buffer`. -/
structure Buffer where
  chars : Fin BUFFER_HEIGHT → Fin BUFFER_WIDTH → ScreenChar

/-- Checked read `self.buffer.chars[row][col].read()`: `none` models an
out-of-bounds index panic. -/
def Buffer.readChar (b : Buffer) (row col : Nat) : Option ScreenChar :=
  if h1 : row < BUFFER_HEIGHT then
    if h2 : col < BUFFER_WIDTH then some (b.chars ⟨row, h1⟩ ⟨col, h2⟩)
    else none
  else none

/-- Pointwise functional update of one cell (the in-bounds meaning of a write). -/
def Buffer.setChar (b : Buffer) (row col : Nat) (c : ScreenChar) : Buffer :=
  ⟨fun r k => if r.val = row ∧ k.val = col then c else b.chars r k⟩

/-- Checked write `self.buffer.chars[row][col].write(c)`: `none` models an
out-of-bounds index panic. -/
def Buffer.writeChar (b : Buffer) (row col : Nat) (c : ScreenChar) : Option Buffer :=
  if _h1 : row < BUFFER_HEIGHT then
    if _h2 : col < BUFFER_WIDTH then some (b.setChar row col c)
    else none
  else none

/-- The writer state, `struct Writer`: current column on the bottom row, the
active color byte, and the grid (held by mutable reference in the source). -/
structure Writer where
  column_position : Nat
  color_code : ColorCode
  buffer : Buffer

/-- Writer::clear_row: overwrite every cell of `row` with a blank
ScreenChar (glyph `b' '` = 0x20, the writer's current color). -/
def Writer.clear_row (w : Writer) (row : Nat) : Option Writer := do
  let blank : ScreenChar := { ascii_character := 0x20, color_code := w.color_code }
  let b ← (List.range BUFFER_WIDTH).foldlM (fun acc col => acc.writeChar row col blank) w.buffer
  pure { w with buffer := b }

/-- Writer::new_line: for row in 1..BUFFER_HEIGHT, for col in 0..BUFFER_WIDTH,
copy cell (row, col) to (row-1, col); then clear the bottom row and reset the
column to 0. -/
def Writer.new_line (w : Writer) : Option Writer := do
  let b ← (List.range' 1 (BUFFER_HEIGHT - 1)).foldlM
    (fun acc row => (List.range BUFFER_WIDTH).foldlM
      (fun acc2 col => do
        let character ← acc2.readChar row col
        acc2.writeChar (row - 1) col character) acc)
    w.buffer
  let w2 : Writer := { w with buffer := b }
  let w3 ← w2.clear_row (BUFFER_HEIGHT - 1)
  pure { w3 with column_position := 0 }

/-- Writer::write_byte: on `b'\n'` invoke new_line; otherwise break the line
first if the column has reached BUFFER_WIDTH, then write the glyph with the
current color into the bottom row at the current column and advance. -/
def Writer.write_byte (w : Writer) (byte : Nat) : Option Writer :=
  if byte = 0x0a then w.new_line
  else do
    let w1 ← if w.column_position ≥ BUFFER_WIDTH then w.new_line else pure w
    let row := BUFFER_HEIGHT - 1
    let col := w1.column_position
    let color_code := w1.color_code
    let b ← w1.buffer.writeChar row col
      { ascii_character := byte, color_code := color_code }
    pure { w1 with buffer := b, column_position := w1.column_position + 1 }

/-- Writer::write_string: each byte in the printable ASCII range 0x20..0x7e or
equal to `b'\n'` is passed to write_byte unchanged; any other byte is replaced
by the placeholder 0xfe. The input string is modelled as its byte sequence. -/
def Writer.write_string (w : Writer) (s : List Nat) : Option Writer :=
  s.foldlM
    (fun acc byte =>
      if (0x20 ≤ byte ∧ byte ≤ 0x7e) ∨ byte = 0x0a then acc.write_byte byte
      else acc.write_byte 0xfe)
    w

/-- fmt::Write for Writer: write_str forwards to write_string and returns
Ok(()), modelled as `Except.ok ()`. -/
def Writer.write_str (w : Writer) (s : List Nat) : Option (Writer × Except Unit Unit) := do
  let w2 ← w.write_string s
  pure (w2, Except.ok ())

/-- Instrumented write_byte: same computation as write_byte, but also returns
how many times new_line (line-advance) was invoked during the call (0 or 1). -/
def Writer.write_byte_count (w : Writer) (byte : Nat) : Option (Writer × Nat) :=
  if byte = 0x0a then do
    let w1 ← w.new_line
    pure (w1, 1)
  else if w.column_position ≥ BUFFER_WIDTH then do
    let w1 ← w.new_line
    let b ← w1.buffer.writeChar (BUFFER_HEIGHT - 1) w1.column_position
      { ascii_character := byte, color_code := w1.color_code }
    pure ({ w1 with buffer := b, column_position := w1.column_position + 1 }, 1)
  else do
    let b ← w.buffer.writeChar (BUFFER_HEIGHT - 1) w.column_position
      { ascii_character := byte, color_code := w.color_code }
    pure ({ w with buffer := b, column_position := w.column_position + 1 }, 0)

/-- A sequence of write_byte calls, one per list element in order, accumulating
the total number of line-advances. -/
def Writer.write_bytes_count (w : Writer) (bs : List Nat) : Option (Writer × Nat) :=
  match bs with
  | [] => some (w, 0)
  | c :: rest => do
    let q ← w.write_byte_count c
    let p ← q.1.write_bytes_count rest
    pure (p.1, q.2 + p.2)

/-- The functional result of one line-advance: every row takes the prior
content of the row below it, the bottom row becomes blank in the writer's
current color, and the column is 0. Proved below to be exactly what new_line
computes. -/
def Writer.newLineSpec (w : Writer) : Writer :=
  { column_position := 0
    color_code := w.color_code
    buffer := ⟨fun r c =>
      if h : r.val + 1 < BUFFER_HEIGHT then w.buffer.chars ⟨r.val + 1, h⟩ c
      else { ascii_character := 0x20, color_code := w.color_code }⟩ }

theorem BUFFER_HEIGHT_eq : BUFFER_HEIGHT = 25 := rfl

theorem BUFFER_WIDTH_eq : BUFFER_WIDTH = 80 := rfl

theorem writeChar_eq (b : Buffer) (row col : Nat) (c : ScreenChar)
    (h1 : row < BUFFER_HEIGHT) (h2 : col < BUFFER_WIDTH) :
    b.writeChar row col c = some (b.setChar row col c) := by
  unfold Buffer.writeChar
  rw [dif_pos h1, dif_pos h2]

theorem readChar_eq (b : Buffer) (row col : Nat)
    (h1 : row < BUFFER_HEIGHT) (h2 : col < BUFFER_WIDTH) :
    b.readChar row col = some (b.chars ⟨row, h1⟩ ⟨col, h2⟩) := by
  unfold Buffer.readChar
  rw [dif_pos h1, dif_pos h2]

/-- The column loop of clear_row, characterized: the first n cells of `row`
become blank, everything else is untouched. -/
theorem clear_loop_eq (b : Buffer) (row : Nat) (hrow : row < BUFFER_HEIGHT)
    (blank : ScreenChar) (n : Nat) (hn : n ≤ BUFFER_WIDTH) :
    (List.range n).foldlM (fun acc col => acc.writeChar row col blank) b
      = some ⟨fun r k => if r.val = row ∧ k.val < n then blank else b.chars r k⟩ := by
  induction n with
  | zero =>
    cases b with
    | mk f => simp [List.range_zero, List.foldlM_nil, pure]
  | succ m ih =>
    rw [List.range_succ, List.foldlM_append, ih (by omega)]
    have hmW : m < BUFFER_WIDTH := by omega
    simp only [Option.pure_def, Option.bind_eq_bind, Option.some_bind,
      List.foldlM_cons, List.foldlM_nil]
    rw [writeChar_eq _ _ _ _ hrow hmW]
    simp only [Option.some_bind]
    unfold Buffer.setChar
    simp only [Option.some.injEq, Buffer.mk.injEq]
    funext r k
    split_ifs <;> first | rfl | omega

theorem chars_congr (b : Buffer) {r1 r2 : Fin BUFFER_HEIGHT} (h : r1.val = r2.val)
    (k : Fin BUFFER_WIDTH) : b.chars r1 k = b.chars r2 k := by
  rw [Fin.ext h]

/-- The column loop of new_line for one fixed source row, characterized: the
first n cells of row-1 take the values of row, everything else is untouched. -/
theorem chars_congr2 (b : Buffer) {r1 r2 : Fin BUFFER_HEIGHT} {k1 k2 : Fin BUFFER_WIDTH}
    (hr : r1.val = r2.val) (hk : k1.val = k2.val) : b.chars r1 k1 = b.chars r2 k2 := by
  rw [Fin.ext hr, Fin.ext hk]

/-- The column loop of new_line for one fixed source row, characterized: the
first n cells of row-1 take the values of row, everything else is untouched. -/
theorem copy_loop_eq (b : Buffer) (row : Nat) (hr1 : 1 ≤ row) (hrow : row < BUFFER_HEIGHT)
    (n : Nat) (hn : n ≤ BUFFER_WIDTH) :
    (List.range n).foldlM
      (fun acc2 col =>
        (acc2.readChar row col).bind fun character =>
          acc2.writeChar (row - 1) col character) b
      = some ⟨fun r k => if r.val = row - 1 ∧ k.val < n then b.chars ⟨row, hrow⟩ k
          else b.chars r k⟩ := by
  induction n with
  | zero =>
    cases b with
    | mk f => simp [List.range_zero, List.foldlM_nil, pure]
  | succ m ih =>
    rw [List.range_succ, List.foldlM_append, ih (by omega)]
    have hmW : m < BUFFER_WIDTH := by omega
    simp only [Option.pure_def, Option.bind_eq_bind, Option.some_bind,
      List.foldlM_cons, List.foldlM_nil]
    rw [readChar_eq _ _ _ hrow hmW]
    simp only [Option.some_bind]
    rw [writeChar_eq _ _ _ _ (show row - 1 < BUFFER_HEIGHT by omega) hmW]
    simp only [Option.some_bind]
    unfold Buffer.setChar
    simp only [Option.some.injEq, Buffer.mk.injEq, Fin.val_mk]
    funext r k
    dsimp only [Fin.val_mk]
    split_ifs <;>
      first
        | rfl
        | omega
        | exact chars_congr2 b (by first | (simp only [Fin.val_mk] <;> omega) | omega) (by first | (simp only [Fin.val_mk] <;> omega) | omega)

/-- The row loop of new_line, characterized: after processing rows 1..m, each
row below index m holds the prior content of the row after it. -/
theorem scroll_loop_eq (b : Buffer) (m : Nat) (hm : m + 1 ≤ BUFFER_HEIGHT) :
    (List.range' 1 m).foldlM
      (fun acc row => (List.range BUFFER_WIDTH).foldlM
        (fun acc2 col =>
          (acc2.readChar row col).bind fun character =>
            acc2.writeChar (row - 1) col character) acc)
      b
      = some ⟨fun r k =>
          if h : r.val < m then b.chars ⟨r.val + 1, by omega⟩ k else b.chars r k⟩ := by
  induction m with
  | zero =>
    cases b with
    | mk f => simp [List.range', List.foldlM_nil, pure]
  | succ m ih =>
    rw [List.range'_concat, List.foldlM_append, ih (by omega)]
    simp only [Option.pure_def, Option.bind_eq_bind, Option.some_bind,
      List.foldlM_cons, List.foldlM_nil, Nat.one_mul]
    rw [copy_loop_eq _ (1 + m) (by omega) (by omega) BUFFER_WIDTH (by omega)]
    simp only [Option.some_bind, Option.some.injEq, Buffer.mk.injEq, Fin.val_mk]
    funext r k
    dsimp only [Fin.val_mk]
    split_ifs <;>
      first
        | rfl
        | omega
        | exact chars_congr2 b (by first | (simp only [Fin.val_mk] <;> omega) | omega) (by first | (simp only [Fin.val_mk] <;> omega) | omega)

/-- clear_row characterized: the whole row becomes blank in the writer's
current color; nothing else changes. -/
theorem clear_row_eq (w : Writer) (row : Nat) (hrow : row < BUFFER_HEIGHT) :
    w.clear_row row = some { w with buffer := ⟨fun r k =>
      if r.val = row then { ascii_character := 0x20, color_code := w.color_code }
      else w.buffer.chars r k⟩ } := by
  unfold Writer.clear_row
  dsimp only
  rw [clear_loop_eq w.buffer row hrow _ BUFFER_WIDTH (le_refl _)]
  simp only [Option.pure_def, Option.bind_eq_bind, Option.some_bind, Option.some.injEq,
    Writer.mk.injEq, Buffer.mk.injEq, true_and]
  funext r k
  have hk := k.isLt
  split_ifs <;> first | rfl | omega

/-- new_line characterized: it always succeeds and produces exactly the
scroll-and-clear result described by newLineSpec. -/
theorem new_line_eq (w : Writer) : w.new_line = some w.newLineSpec := by
  unfold Writer.new_line
  simp only [Option.bind_eq_bind]
  rw [scroll_loop_eq w.buffer (BUFFER_HEIGHT - 1) (by decide)]
  simp only [Option.some_bind]
  rw [clear_row_eq _ _ (by decide)]
  simp only [Option.pure_def, Option.some_bind, Option.some.injEq]
  unfold Writer.newLineSpec
  simp only [Writer.mk.injEq, Buffer.mk.injEq, true_and, and_true]
  funext r k
  have hr := r.isLt
  split_ifs <;> first | rfl | omega

theorem newLineSpec_col (w : Writer) : w.newLineSpec.column_position = 0 := rfl

theorem newLineSpec_color (w : Writer) : w.newLineSpec.color_code = w.color_code := rfl

/-- write_byte characterized by three cases: newline, in-line write, and
write after a forced line break. -/
theorem write_byte_cases (w : Writer) (byte : Nat) :
    w.write_byte byte =
      if byte = 0x0a then some w.newLineSpec
      else if w.column_position < BUFFER_WIDTH then
        some { column_position := w.column_position + 1
               color_code := w.color_code
               buffer := w.buffer.setChar (BUFFER_HEIGHT - 1) w.column_position
                 { ascii_character := byte, color_code := w.color_code } }
      else
        some { column_position := 1
               color_code := w.color_code
               buffer := w.newLineSpec.buffer.setChar (BUFFER_HEIGHT - 1) 0
                 { ascii_character := byte, color_code := w.color_code } } := by
  unfold Writer.write_byte
  by_cases hb : byte = 0x0a
  · rw [if_pos hb, if_pos hb, new_line_eq]
  · rw [if_neg hb, if_neg hb]
    by_cases hc : w.column_position ≥ BUFFER_WIDTH
    · rw [if_pos hc, if_neg (show ¬ w.column_position < BUFFER_WIDTH by omega)]
      simp only [Option.bind_eq_bind, Option.pure_def, Option.some_bind]
      rw [new_line_eq]
      simp only [Option.some_bind, newLineSpec_col, newLineSpec_color]
      rw [writeChar_eq _ _ _ _ (by decide) (by decide)]
      simp only [Option.some_bind]
    · rw [if_neg hc, if_pos (show w.column_position < BUFFER_WIDTH by omega)]
      simp only [Option.bind_eq_bind, Option.pure_def, Option.some_bind]
      rw [writeChar_eq _ _ _ _ (by decide) (by omega)]
      simp only [Option.some_bind]

/-- The instrumented write_byte characterized by the same three cases. -/
theorem write_byte_count_cases (w : Writer) (byte : Nat) :
    w.write_byte_count byte =
      if byte = 0x0a then some (w.newLineSpec, 1)
      else if w.column_position < BUFFER_WIDTH then
        some ({ column_position := w.column_position + 1
                color_code := w.color_code
                buffer := w.buffer.setChar (BUFFER_HEIGHT - 1) w.column_position
                  { ascii_character := byte, color_code := w.color_code } }, 0)
      else
        some ({ column_position := 1
                color_code := w.color_code
                buffer := w.newLineSpec.buffer.setChar (BUFFER_HEIGHT - 1) 0
                  { ascii_character := byte, color_code := w.color_code } }, 1) := by
  unfold Writer.write_byte_count
  by_cases hb : byte = 0x0a
  · rw [if_pos hb, if_pos hb, new_line_eq]
    simp only [Option.bind_eq_bind, Option.pure_def, Option.some_bind]
  · rw [if_neg hb, if_neg hb]
    by_cases hc : w.column_position ≥ BUFFER_WIDTH
    · rw [if_pos hc, if_neg (show ¬ w.column_position < BUFFER_WIDTH by omega)]
      simp only [Option.bind_eq_bind, Option.pure_def, Option.some_bind]
      rw [new_line_eq]
      simp only [Option.some_bind, newLineSpec_col, newLineSpec_color]
      rw [writeChar_eq _ _ _ _ (by decide) (by decide)]
      simp only [Option.some_bind]
    · rw [if_neg hc, if_pos (show w.column_position < BUFFER_WIDTH by omega)]
      simp only [Option.bind_eq_bind, Option.pure_def, Option.some_bind]
      rw [writeChar_eq _ _ _ _ (by decide) (by omega)]
      simp only [Option.some_bind]

/-- The counter instruments write_byte faithfully: dropping it gives exactly
write_byte. -/
theorem write_byte_count_fst (w : Writer) (byte : Nat) :
    (w.write_byte_count byte).map Prod.fst = w.write_byte byte := by
  rw [write_byte_cases, write_byte_count_cases]
  by_cases hb : byte = 0x0a
  · simp [hb]
  · by_cases hc : w.column_position < BUFFER_WIDTH <;> simp [hb, hc]

/-- write_byte always succeeds, leaves the column at most BUFFER_WIDTH, and
never touches the color. -/
theorem write_byte_some (w : Writer) (byte : Nat) :
    ∃ w2, w.write_byte byte = some w2 ∧ w2.column_position ≤ BUFFER_WIDTH ∧
      w2.color_code = w.color_code := by
  rw [write_byte_cases]
  by_cases hb : byte = 0x0a
  · rw [if_pos hb]
    exact ⟨w.newLineSpec, rfl, by rw [newLineSpec_col]; exact Nat.zero_le _, rfl⟩
  · rw [if_neg hb]
    by_cases hc : w.column_position < BUFFER_WIDTH
    · rw [if_pos hc]
      exact ⟨_, rfl, by simp only; omega, rfl⟩
    · rw [if_neg hc]
      exact ⟨_, rfl, by simp only; decide, rfl⟩

/-- write_string always succeeds, preserves the color, and keeps the column
invariant. -/
theorem write_string_some (s : List Nat) : ∀ w : Writer,
    ∃ w2, w.write_string s = some w2 ∧ w2.color_code = w.color_code ∧
      (w.column_position ≤ BUFFER_WIDTH → w2.column_position ≤ BUFFER_WIDTH) := by
  induction s with
  | nil => exact fun w => ⟨w, rfl, rfl, fun h => h⟩
  | cons c rest ih =>
    intro w
    unfold Writer.write_string
    rw [List.foldlM_cons]
    by_cases hc : (0x20 ≤ c ∧ c ≤ 0x7e) ∨ c = 0x0a
    · rw [if_pos hc]
      obtain ⟨w1, h1, hcol1, hcc1⟩ := write_byte_some w c
      obtain ⟨w2, h2, hcc2, hcol2⟩ := ih w1
      rw [h1]
      simp only [Option.bind_eq_bind, Option.some_bind]
      exact ⟨w2, h2, by rw [hcc2, hcc1], fun _ => hcol2 hcol1⟩
    · rw [if_neg hc]
      obtain ⟨w1, h1, hcol1, hcc1⟩ := write_byte_some w 0xfe
      obtain ⟨w2, h2, hcc2, hcol2⟩ := ih w1
      rw [h1]
      simp only [Option.bind_eq_bind, Option.some_bind]
      exact ⟨w2, h2, by rw [hcc2, hcc1], fun _ => hcol2 hcol1⟩

/-- write_str always succeeds, returns Ok, preserves the color, and keeps the
column invariant. -/
theorem write_str_some (w : Writer) (s : List Nat) :
    ∃ w2, w.write_str s = some (w2, Except.ok ()) ∧ w2.color_code = w.color_code ∧
      (w.column_position ≤ BUFFER_WIDTH → w2.column_position ≤ BUFFER_WIDTH) := by
  obtain ⟨w2, h2, hcc, hcol⟩ := write_string_some s w
  refine ⟨w2, ?_, hcc, hcol⟩
  unfold Writer.write_str
  rw [h2]
  rfl

theorem write_bytes_count_nil (w : Writer) : w.write_bytes_count [] = some (w, 0) := rfl

theorem write_bytes_count_cons (w : Writer) (c : Nat) (rest : List Nat) :
    w.write_bytes_count (c :: rest) =
      (w.write_byte_count c).bind fun q =>
        (q.1.write_bytes_count rest).bind fun p => some (p.1, q.2 + p.2) := rfl

theorem write_bytes_count_append (l1 l2 : List Nat) : ∀ w : Writer,
    w.write_bytes_count (l1 ++ l2) =
      (w.write_bytes_count l1).bind fun p =>
        (p.1.write_bytes_count l2).map fun q => (q.1, p.2 + q.2) := by
  induction l1 with
  | nil =>
    intro w
    rw [List.nil_append, write_bytes_count_nil]
    cases h : w.write_bytes_count l2 with
    | none => simp [h]
    | some p => simp [h]
  | cons c rest ih =>
    intro w
    rw [List.cons_append, write_bytes_count_cons, write_bytes_count_cons]
    cases hq : w.write_byte_count c with
    | none => simp
    | some q =>
      simp only [Option.bind_eq_bind, Option.some_bind, ih q.1]
      cases hp : q.1.write_bytes_count rest with
      | none => simp
      | some p =>
        simp only [Option.some_bind, Option.pure_def]
        cases hr : p.1.write_bytes_count l2 with
        | none => simp
        | some r => simp [Nat.add_assoc]

/-- Closed form for the column and the number of line-advances after writing a
newline-free byte sequence starting from column 0. -/
theorem write_bytes_count_closed (bs : List Nat) (w : Writer)
    (h0 : w.column_position = 0) (hnn : ∀ b ∈ bs, b ≠ 0x0a) :
    ∃ w2 k, w.write_bytes_count bs = some (w2, k) ∧
      ((bs.length = 0 ∧ w2.column_position = 0 ∧ k = 0) ∨
       (1 ≤ bs.length ∧ w2.column_position = (bs.length - 1) % 80 + 1 ∧
         k = (bs.length - 1) / 80)) := by
  induction bs using List.reverseRecOn with
  | nil => exact ⟨w, 0, rfl, Or.inl ⟨rfl, h0, rfl⟩⟩
  | append_singleton l c ih =>
    have hnl : ∀ b ∈ l, b ≠ 0x0a := fun b hb => hnn b (List.mem_append_left _ hb)
    have hcl : c ≠ 0x0a := hnn c (List.mem_append_right _ (List.mem_singleton.mpr rfl))
    obtain ⟨w2, k, heq, hdisj⟩ := ih hnl
    rw [write_bytes_count_append, heq]
    simp only [Option.some_bind, write_bytes_count_cons, write_bytes_count_nil,
      Option.bind_eq_bind]
    rw [write_byte_count_cases, if_neg hcl]
    have hlen : (l ++ [c]).length = l.length + 1 := by
      rw [List.length_append, List.length_singleton]
    rcases hdisj with ⟨hl0, hc0, hk0⟩ | ⟨hl1, hcol, hk⟩
    · rw [if_pos (show w2.column_position < BUFFER_WIDTH by
        rw [hc0, BUFFER_WIDTH_eq]; omega)]
      simp only [Option.some_bind, Option.map_some, Option.some.injEq]
      refine ⟨_, _, rfl, Or.inr ⟨by omega, ?_, ?_⟩⟩
      · simp only [hlen, hc0]
        omega
      · simp only [hlen]
        omega
    · by_cases hlt : w2.column_position < BUFFER_WIDTH
      · rw [if_pos hlt]
        simp only [Option.some_bind, Option.map_some, Option.some.injEq]
        rw [BUFFER_WIDTH_eq] at hlt
        refine ⟨_, _, rfl, Or.inr ⟨by omega, ?_, ?_⟩⟩
        · simp only [hlen, hcol]
          rw [hcol] at hlt
          omega
        · simp only [hlen, hk]
          rw [hcol] at hlt
          omega
      · rw [if_neg hlt]
        simp only [Option.some_bind, Option.map_some, Option.some.injEq]
        rw [BUFFER_WIDTH_eq] at hlt
        rw [hcol] at hlt
        refine ⟨_, _, rfl, Or.inr ⟨by omega, ?_, ?_⟩⟩
        · simp only [hlen]
          omega
        · simp only [hlen, hk]
          omega

/-- Writing a newline-free sequence that fits in the remaining space of the
line performs no line-advance, advances the column by the length, and fills
consecutive cells of the bottom row with the bytes in order (stamped with the
writer's color); all other cells are untouched. -/
theorem write_bytes_count_fill (bs : List Nat) : ∀ (w : Writer) (c0 : Nat),
    w.column_position = c0 → c0 + bs.length ≤ BUFFER_WIDTH → (∀ b ∈ bs, b ≠ 0x0a) →
    ∃ w2, w.write_bytes_count bs = some (w2, 0) ∧
      w2.column_position = c0 + bs.length ∧
      w2.color_code = w.color_code ∧
      ∀ r k, w2.buffer.chars r k =
        if r.val = BUFFER_HEIGHT - 1 ∧ c0 ≤ k.val ∧ k.val < c0 + bs.length
        then { ascii_character := bs.getD (k.val - c0) 0, color_code := w.color_code }
        else w.buffer.chars r k := by
  induction bs with
  | nil =>
    intro w c0 hc0 _ _
    refine ⟨w, rfl, by simp only [List.length_nil]; omega, rfl, ?_⟩
    intro r k
    rw [if_neg (by simp only [List.length_nil]; omega)]
  | cons c rest ih =>
    intro w c0 hc0 hle hnn
    have hcnl : c ≠ 0x0a := hnn c (List.mem_cons_self c rest)
    have hrl : rest.length + 1 = (c :: rest).length := by rw [List.length_cons]
    rw [write_bytes_count_cons, write_byte_count_cases, if_neg hcnl,
      if_pos (show w.column_position < BUFFER_WIDTH by
        rw [List.length_cons] at hle; omega)]
    simp only [Option.some_bind, Option.bind_eq_bind]
    obtain ⟨w2, heq2, hcol2, hcc2, hbuf2⟩ := ih
      { column_position := w.column_position + 1
        color_code := w.color_code
        buffer := w.buffer.setChar (BUFFER_HEIGHT - 1) w.column_position
          { ascii_character := c, color_code := w.color_code } }
      (c0 + 1) (by simp only; omega)
      (by simp only [List.length_cons] at hle; omega)
      (fun b hb => hnn b (List.mem_cons_of_mem c hb))
    rw [heq2]
    simp only [Option.some_bind, Option.some.injEq]
    refine ⟨w2, rfl, ?_, ?_, ?_⟩
    · rw [hcol2, List.length_cons]
      omega
    · rw [hcc2]
    · intro r k
      rw [hbuf2 r k]
      simp only [Buffer.setChar, List.length_cons]
      by_cases hmid : r.val = BUFFER_HEIGHT - 1 ∧ c0 + 1 ≤ k.val ∧ k.val < c0 + 1 + rest.length
      · rw [if_pos hmid, if_pos (by omega)]
        have hsub : k.val - c0 = (k.val - (c0 + 1)) + 1 := by omega
        rw [hsub, List.getD_cons_succ]
      · rw [if_neg hmid]
        by_cases hset : r.val = BUFFER_HEIGHT - 1 ∧ k.val = w.column_position
        · rw [if_pos hset, if_pos (by omega)]
          have hsub : k.val - c0 = 0 := by omega
          rw [hsub, List.getD_cons_zero]
        · rw [if_neg hset, if_neg (by omega)]

theorem newLineSpec_chars_lt (w : Writer) (r : Fin BUFFER_HEIGHT) (c : Fin BUFFER_WIDTH)
    (h : r.val + 1 < BUFFER_HEIGHT) :
    w.newLineSpec.buffer.chars r c = w.buffer.chars ⟨r.val + 1, h⟩ c := by
  unfold Writer.newLineSpec
  dsimp only
  rw [dif_pos h]

theorem newLineSpec_chars_last (w : Writer) (r : Fin BUFFER_HEIGHT) (c : Fin BUFFER_WIDTH)
    (h : ¬ (r.val + 1 < BUFFER_HEIGHT)) :
    w.newLineSpec.buffer.chars r c
      = { ascii_character := 0x20, color_code := w.color_code } := by
  unfold Writer.newLineSpec
  dsimp only
  rw [dif_neg h]

/-- A concrete all-blank white-on-black grid, used to instantiate theorems. -/
def testBuffer : Buffer := ⟨fun _ _ => { ascii_character := 0x20, color_code := 0x0f }⟩

/-- A concrete writer at column 0 over the blank grid. -/
def w0 : Writer := { column_position := 0, color_code := 0x0f, buffer := testBuffer }

/-- C1: write_byte on the newline byte invokes line-advance, writes no cell,
and leaves the column at 0 regardless of its prior value; on any other byte it
first line-advances if the column has reached 80, then writes a cell holding
the byte and the writer's current ColorPair into the bottom row (row 24) at
the current column and increments the column by one. -/
theorem claim1_write_byte_behavior (w : Writer) (byte : Nat) :
    (byte = 0x0a →
      w.write_byte byte = w.new_line ∧
      w.write_byte byte = some w.newLineSpec ∧
      w.newLineSpec.column_position = 0) ∧
    (byte ≠ 0x0a → w.column_position < 80 →
      w.write_byte byte = some
        { column_position := w.column_position + 1
          color_code := w.color_code
          buffer := w.buffer.setChar 24 w.column_position
            { ascii_character := byte, color_code := w.color_code } }) ∧
    (byte ≠ 0x0a → w.column_position = 80 →
      w.write_byte byte = some
        { column_position := 1
          color_code := w.color_code
          buffer := w.newLineSpec.buffer.setChar 24 0
            { ascii_character := byte, color_code := w.color_code } }) := by
  refine ⟨?_, ?_, ?_⟩
  · intro hb
    subst hb
    refine ⟨?_, ?_, rfl⟩
    · unfold Writer.write_byte
      rw [if_pos rfl]
    · rw [write_byte_cases, if_pos rfl]
  · intro hb hcol
    rw [write_byte_cases, if_neg hb,
      if_pos (show w.column_position < BUFFER_WIDTH by rw [BUFFER_WIDTH_eq]; omega)]
    rfl
  · intro hb hcol
    rw [write_byte_cases, if_neg hb,
      if_neg (show ¬ w.column_position < BUFFER_WIDTH by rw [BUFFER_WIDTH_eq]; omega)]
    rfl

theorem claim1_write_byte_behavior_witness :
    (0x41 : Nat) ≠ 0x0a ∧ w0.column_position < 80 ∧
    w0.write_byte 0x41 = some
      { column_position := w0.column_position + 1
        color_code := w0.color_code
        buffer := w0.buffer.setChar 24 w0.column_position
          { ascii_character := 0x41, color_code := w0.color_code } } :=
  ⟨by decide, by decide,
    (claim1_write_byte_behavior w0 0x41).2.1 (by decide) (by decide)⟩

/-- C2: one line-advance shifts each row r in 0..23 to the prior content of
row r+1 (glyph and color preserved, column order preserved), discards row 0,
fills row 24 entirely with glyph-0x20 cells in the writer's current color,
and sets the column to 0. -/
theorem claim2_line_advance (w : Writer) :
    ∃ w2, w.new_line = some w2 ∧
      w2.column_position = 0 ∧
      w2.color_code = w.color_code ∧
      (∀ (r c : Nat) (hr : r < 24) (hc : c < 80),
        w2.buffer.chars ⟨r, by rw [BUFFER_HEIGHT_eq]; omega⟩
            ⟨c, by rw [BUFFER_WIDTH_eq]; omega⟩
          = w.buffer.chars ⟨r + 1, by rw [BUFFER_HEIGHT_eq]; omega⟩
            ⟨c, by rw [BUFFER_WIDTH_eq]; omega⟩) ∧
      (∀ c : Fin BUFFER_WIDTH,
        w2.buffer.chars ⟨24, by rw [BUFFER_HEIGHT_eq]; omega⟩ c
          = { ascii_character := 0x20, color_code := w.color_code }) := by
  refine ⟨w.newLineSpec, new_line_eq w, rfl, rfl, ?_, ?_⟩
  · intro r c hr hc
    rw [newLineSpec_chars_lt w _ _ (by simp only [Fin.val_mk]; rw [BUFFER_HEIGHT_eq]; omega)]
  · intro c
    rw [newLineSpec_chars_last w _ _ (by simp only [Fin.val_mk]; rw [BUFFER_HEIGHT_eq]; omega)]

theorem claim2_line_advance_witness :
    ∃ w2, w0.new_line = some w2 ∧ w2.column_position = 0 ∧
      w2.buffer.chars ⟨3, by decide⟩ ⟨5, by decide⟩
        = w0.buffer.chars ⟨4, by decide⟩ ⟨5, by decide⟩ := by
  obtain ⟨w2, h1, h2, _, h4, _⟩ := claim2_line_advance w0
  exact ⟨w2, h1, h2, h4 3 5 (by decide) (by decide)⟩

/-- C6: the packed ColorPair byte built from foreground F and background B
holds F's code in bits 0-3 and B's code in bits 4-7; decoding the low and
high nibbles yields the two codes back. -/
theorem claim6_color_pack (f b : Color) :
    ColorCode.new f b &&& 0xf = f.toNat ∧
    ColorCode.new f b >>> 4 = b.toNat ∧
    ColorCode.new f b % 16 = f.toNat ∧
    ColorCode.new f b / 16 = b.toNat := by
  cases f <;> cases b <;> decide

/-- C7: the invariant 0 <= column <= 80 is preserved by write_byte,
write_string, and the formatter-interface write. -/
theorem claim7_column_bound_preserved (w : Writer) (hcol : w.column_position ≤ 80) :
    (∀ byte w2, w.write_byte byte = some w2 → w2.column_position ≤ 80) ∧
    (∀ s w2, w.write_string s = some w2 → w2.column_position ≤ 80) ∧
    (∀ s w2 res, w.write_str s = some (w2, res) → w2.column_position ≤ 80) := by
  have hW : BUFFER_WIDTH = 80 := BUFFER_WIDTH_eq
  refine ⟨?_, ?_, ?_⟩
  · intro byte w2 h
    obtain ⟨w2', h', hle, -⟩ := write_byte_some w byte
    rw [h] at h'
    injection h' with he
    rw [he, ← hW]
    exact hle
  · intro s w2 h
    obtain ⟨w2', h', -, hle⟩ := write_string_some s w
    rw [h] at h'
    injection h' with he
    rw [he, ← hW]
    exact hle (by rw [hW]; exact hcol)
  · intro s w2 res h
    obtain ⟨w2', h', -, hle⟩ := write_str_some w s
    rw [h] at h'
    injection h' with he
    injection he with he1 he2
    rw [he1, ← hW]
    exact hle (by rw [hW]; exact hcol)

theorem claim7_column_bound_preserved_witness :
    w0.column_position ≤ 80 ∧
    w0.write_byte 0x41 = some ((w0.write_byte 0x41).getD w0) ∧
    ((w0.write_byte 0x41).getD w0).column_position ≤ 80 :=
  ⟨by decide, rfl,
    (claim7_column_bound_preserved w0 (by decide)).1 0x41
      ((w0.write_byte 0x41).getD w0) rfl⟩

/-- C8: for a printable ASCII byte or the newline byte, write_string on the
one-byte sequence equals write_byte on that byte: same grid, same state. -/
theorem claim8_singleton_equiv (w : Writer) (byte : Nat)
    (hb : (0x20 ≤ byte ∧ byte ≤ 0x7e) ∨ byte = 0x0a) :
    w.write_string [byte] = w.write_byte byte := by
  unfold Writer.write_string
  simp only [List.foldlM_cons, List.foldlM_nil, if_pos hb]
  cases h : w.write_byte byte <;> simp [h]

theorem claim8_singleton_equiv_witness :
    ((0x20 ≤ (0x48 : Nat) ∧ (0x48 : Nat) ≤ 0x7e) ∨ (0x48 : Nat) = 0x0a) ∧
    w0.write_string [0x48] = w0.write_byte 0x48 :=
  ⟨by decide, claim8_singleton_equiv w0 0x48 (by decide)⟩

/-- C9: under the precondition column <= 80, write_byte, write_string, and the
formatter-interface write never hit an out-of-bounds grid access (modelled as
`none`): every call completes with `some`. -/
theorem claim9_no_out_of_bounds (w : Writer) (hcol : w.column_position ≤ 80) :
    (∀ byte, (w.write_byte byte).isSome) ∧
    (∀ s, (w.write_string s).isSome) ∧
    (∀ s, (w.write_str s).isSome) := by
  refine ⟨?_, ?_, ?_⟩
  · intro byte
    obtain ⟨w2, h, -, -⟩ := write_byte_some w byte
    rw [h]
    rfl
  · intro s
    obtain ⟨w2, h, -, -⟩ := write_string_some s w
    rw [h]
    rfl
  · intro s
    obtain ⟨w2, h, -⟩ := write_str_some w s
    rw [h]
    rfl

theorem claim9_no_out_of_bounds_witness :
    w0.column_position ≤ 80 ∧ (w0.write_byte 0x41).isSome ∧
    (w0.write_string [0xff, 0x41, 0x0a]).isSome ∧ (w0.write_str [0x31]).isSome :=
  ⟨by decide, (claim9_no_out_of_bounds w0 (by decide)).1 0x41,
    (claim9_no_out_of_bounds w0 (by decide)).2.1 [0xff, 0x41, 0x0a],
    (claim9_no_out_of_bounds w0 (by decide)).2.2 [0x31]⟩

/-- C10: no public operation ever modifies the writer's active ColorPair:
after write_byte, write_string, or the formatter-interface write, the color
byte equals its prior value (and the formatter write reports Ok). -/
theorem claim10_color_unchanged (w : Writer) :
    (∀ byte w2, w.write_byte byte = some w2 → w2.color_code = w.color_code) ∧
    (∀ s w2, w.write_string s = some w2 → w2.color_code = w.color_code) ∧
    (∀ s w2 res, w.write_str s = some (w2, res) →
      w2.color_code = w.color_code ∧ res = Except.ok ()) := by
  refine ⟨?_, ?_, ?_⟩
  · intro byte w2 h
    obtain ⟨w2', h', -, hcc⟩ := write_byte_some w byte
    rw [h] at h'
    injection h' with he
    rw [he]
    exact hcc
  · intro s w2 h
    obtain ⟨w2', h', hcc, -⟩ := write_string_some s w
    rw [h] at h'
    injection h' with he
    rw [he]
    exact hcc
  · intro s w2 res h
    obtain ⟨w2', h', hcc, -⟩ := write_str_some w s
    rw [h] at h'
    injection h' with he
    injection he with he1 he2
    constructor
    · rw [he1]
      exact hcc
    · exact he2

theorem claim10_color_unchanged_witness :
    w0.write_byte 0x41 = some ((w0.write_byte 0x41).getD w0) ∧
    ((w0.write_byte 0x41).getD w0).color_code = w0.color_code :=
  ⟨rfl, (claim10_color_unchanged w0).1 0x41 ((w0.write_byte 0x41).getD w0) rfl⟩

/-- C3 counterexample: the byte 0xfe is outside 0x20..0x7e and is not the
newline byte, yet write_string on [0xfe] writes the glyph 0xfe -- the input
byte itself -- into a cell. -/
theorem claim3_counterexample :
    ¬ ((0x20 ≤ (0xfe : Nat) ∧ (0xfe : Nat) ≤ 0x7e) ∨ (0xfe : Nat) = 0x0a) ∧
    (w0.write_string [0xfe]).map
        (fun w2 => (w2.buffer.chars ⟨24, by decide⟩ ⟨0, by decide⟩).ascii_character)
      = some 0xfe := by
  refine ⟨by decide, ?_⟩
  rfl

/-- C3 (amended): write_string passes each printable-or-newline byte unchanged
to write_byte and passes the placeholder 0xfe for every other byte, one
write_byte call per input byte; and a non-printable byte other than 0xfe
itself is never newly written into any cell (any cell holding that glyph
afterwards descends from a cell already holding it in the same column). -/
theorem claim3_substitution_amended (w : Writer) (s : List Nat) (byte : Nat)
    (hnp : ¬ ((0x20 ≤ byte ∧ byte ≤ 0x7e) ∨ byte = 0x0a)) :
    w.write_string s = s.foldlM (fun acc c => acc.write_byte
        (if (0x20 ≤ c ∧ c ≤ 0x7e) ∨ c = 0x0a then c else 0xfe)) w ∧
    w.write_string [byte] = w.write_byte 0xfe ∧
    (byte ≠ 0xfe → ∀ w2, w.write_string [byte] = some w2 →
      ∀ r c, (w2.buffer.chars r c).ascii_character = byte →
        ∃ r0, (w.buffer.chars r0 c).ascii_character = byte) := by
  have hsingle : w.write_string [byte] = w.write_byte 0xfe := by
    unfold Writer.write_string
    simp only [List.foldlM_cons, List.foldlM_nil, if_neg hnp]
    cases h : w.write_byte 0xfe <;> simp [h]
  refine ⟨?_, hsingle, ?_⟩
  · unfold Writer.write_string
    congr 1
    funext acc c
    by_cases h : (0x20 ≤ c ∧ c ≤ 0x7e) ∨ c = 0x0a
    · rw [if_pos h, if_pos h]
    · rw [if_neg h, if_neg h]
  · intro hne w2 hw2 r c hglyph
    rw [hsingle] at hw2
    rw [write_byte_cases, if_neg (by decide : ¬ (0xfe : Nat) = 0x0a)] at hw2
    by_cases hcw : w.column_position < BUFFER_WIDTH
    · rw [if_pos hcw] at hw2
      injection hw2 with he
      subst he
      simp only [Buffer.setChar] at hglyph
      by_cases hin : r.val = BUFFER_HEIGHT - 1 ∧ c.val = w.column_position
      · rw [if_pos hin] at hglyph
        exact absurd (show byte = 0xfe from hglyph.symm) hne
      · rw [if_neg hin] at hglyph
        exact ⟨r, hglyph⟩
    · rw [if_neg hcw] at hw2
      injection hw2 with he
      subst he
      simp only [Buffer.setChar] at hglyph
      by_cases hin : r.val = BUFFER_HEIGHT - 1 ∧ c.val = 0
      · rw [if_pos hin] at hglyph
        exact absurd (show byte = 0xfe from hglyph.symm) hne
      · rw [if_neg hin] at hglyph
        by_cases hlt : r.val + 1 < BUFFER_HEIGHT
        · rw [newLineSpec_chars_lt w r c hlt] at hglyph
          exact ⟨⟨r.val + 1, hlt⟩, hglyph⟩
        · rw [newLineSpec_chars_last w r c hlt] at hglyph
          have h20 : (0x20 : Nat) = byte := hglyph
          omega

theorem claim3_substitution_amended_witness :
    ¬ ((0x20 ≤ (0x01 : Nat) ∧ (0x01 : Nat) ≤ 0x7e) ∨ (0x01 : Nat) = 0x0a) ∧
    w0.write_string [(0x01 : Nat)] = w0.write_byte 0xfe :=
  ⟨by decide, (claim3_substitution_amended w0 [0x01] 0x01 (by decide)).2.1⟩

set_option maxRecDepth 40000 in
/-- C4 counterexample: 80 non-newline bytes written from column 0 leave the
column at 80 after zero line-advances, while the claim predicts column
80 mod 80 = 0 and floor(80/80) = 1 line-advance. -/
theorem claim4_counterexample :
    (w0.write_bytes_count (List.replicate 80 0x61)).map
        (fun p => (p.1.column_position, p.2)) = some (80, 0) ∧
    (List.replicate 80 (0x61 : Nat)).length % 80 = 0 ∧
    (List.replicate 80 (0x61 : Nat)).length / 80 = 1 := by
  refine ⟨?_, by decide, by decide⟩
  rfl

/-- C4 (amended): starting from column 0, after any sequence of N non-newline
write_byte calls the column equals ((N-1) mod 80) + 1 and line-advance has
been invoked exactly floor((N-1)/80) times when N >= 1 -- which agrees with
column = N mod 80 and floor(N/80) advances except when N is a positive
multiple of 80, where the column is 80 and the count is N/80 - 1; for N = 0
the column is 0 and no advance has occurred. Dropping the counter gives
exactly write_byte. -/
theorem claim4_column_formula_amended (w : Writer) (bs : List Nat)
    (h0 : w.column_position = 0) (hnn : ∀ b ∈ bs, b ≠ 0x0a) :
    (∀ (v : Writer) (c : Nat), (v.write_byte_count c).map Prod.fst = v.write_byte c) ∧
    ∃ w2 k, w.write_bytes_count bs = some (w2, k) ∧
      (bs.length = 0 → w2.column_position = 0 ∧ k = 0) ∧
      (1 ≤ bs.length → w2.column_position = (bs.length - 1) % 80 + 1 ∧
        k = (bs.length - 1) / 80) := by
  refine ⟨write_byte_count_fst, ?_⟩
  obtain ⟨w2, k, heq, hdisj⟩ := write_bytes_count_closed bs w h0 hnn
  refine ⟨w2, k, heq, ?_, ?_⟩
  · intro h0len
    rcases hdisj with ⟨-, hc, hk⟩ | ⟨h1, -, -⟩
    · exact ⟨hc, hk⟩
    · omega
  · intro h1len
    rcases hdisj with ⟨h0', -, -⟩ | ⟨-, hc, hk⟩
    · omega
    · exact ⟨hc, hk⟩

theorem claim4_column_formula_amended_witness :
    w0.column_position = 0 ∧
    ∃ w2 k, w0.write_bytes_count [0x61, 0x62, 0x63] = some (w2, k) ∧
      w2.column_position = (3 - 1) % 80 + 1 ∧ k = (3 - 1) / 80 := by
  refine ⟨rfl, ?_⟩
  obtain ⟨-, w2, k, heq, -, hge⟩ :=
    claim4_column_formula_amended w0 [0x61, 0x62, 0x63] rfl (by decide)
  obtain ⟨hc, hk⟩ := hge (by decide)
  exact ⟨w2, k, heq, hc, hk⟩

/-- C5: from column 0, exactly 80 non-newline bytes fill all 80 cells of the
bottom row (each glyph paired with the writer's color), leave the column at
80, and invoke no line-advance; one further non-newline byte triggers exactly
one. Dropping the counter gives exactly write_byte. -/
theorem claim5_boundary (w : Writer) (bs : List Nat)
    (h0 : w.column_position = 0) (hlen : bs.length = 80) (hnn : ∀ b ∈ bs, b ≠ 0x0a) :
    (∀ (v : Writer) (c : Nat), (v.write_byte_count c).map Prod.fst = v.write_byte c) ∧
    ∃ w2, w.write_bytes_count bs = some (w2, 0) ∧
      w2.column_position = 80 ∧
      (∀ k : Fin BUFFER_WIDTH,
        w2.buffer.chars ⟨24, by rw [BUFFER_HEIGHT_eq]; omega⟩ k
          = { ascii_character := bs.getD k.val 0, color_code := w.color_code }) ∧
      (∀ c, c ≠ 0x0a → ∃ w3, w2.write_byte_count c = some (w3, 1)) := by
  refine ⟨write_byte_count_fst, ?_⟩
  obtain ⟨w2, heq, hcol, hcc, hbuf⟩ := write_bytes_count_fill bs w 0 h0
    (by rw [BUFFER_WIDTH_eq]; omega) hnn
  have hcol80 : w2.column_position = 80 := by rw [hcol, hlen]
  refine ⟨w2, heq, hcol80, ?_, ?_⟩
  · intro k
    have hk80 : k.val < 80 := Nat.lt_of_lt_of_le k.isLt (le_of_eq BUFFER_WIDTH_eq)
    rw [hbuf]
    split_ifs with hcond
    · rw [Nat.sub_zero]
    · exfalso
      apply hcond
      refine ⟨rfl, Nat.zero_le _, by omega⟩
  · intro c hc
    rw [write_byte_count_cases, if_neg hc,
      if_neg (by rw [hcol80, BUFFER_WIDTH_eq]; omega)]
    exact ⟨_, rfl⟩

theorem claim5_boundary_witness :
    w0.column_position = 0 ∧ (List.replicate 80 (0x61 : Nat)).length = 80 ∧
    ∃ w2, w0.write_bytes_count (List.replicate 80 0x61) = some (w2, 0) ∧
      w2.column_position = 80 := by
  refine ⟨rfl, by decide, ?_⟩
  obtain ⟨-, w2, heq, hcol, -, -⟩ := claim5_boundary w0 (List.replicate 80 0x61) rfl
    (by decide) (fun b hb => by have := List.eq_of_mem_replicate hb; omega)
  exact ⟨w2, heq, hcol⟩

end VgaBuffer
